import Mathlib

/-!
Verification of the search-engine repository's core claims.

The development shallowly embeds the repository's Rust code in Lean 4:

* `indexer/algorithms/pagerank.rs` — the Authority Scorer (`calculate_pagerank`),
  embedded over exact rationals (`ℚ` stands in for `f64`; all the claims at stake
  are stated with tolerances far above floating-point error).
* `spider/mod.rs` — the TF-IDF scoring pass `build_and_save_index` (its pure core),
  the `ScoredIndex` structure, and the crawl-loop dispatch logic.
* `crawler/mod.rs` — the concurrent crawl scheduler, as a small-step transition
  system over the shared state (queue, visited set, in-flight tasks, results),
  plus a sequential model of the same loop (faithful to concurrency = 1).
* `indexer/mod.rs` — the document-building part of `run_indexer`.
* JSON persistence of the `ScoredIndex`, as a data-level JSON AST.

Definitions keep the source names where possible.  URL and term values are
`String`s, as in the source; `HashMap`/`HashSet` values are embedded as
association lists / lists with `Nodup` well-formedness where the hash
containers guarantee key uniqueness.
-/

namespace SearchEngine

/-- Association-list lookup: the embedding of `HashMap::get` on maps that are
represented as `List (String × α)`. Returns the value of the first matching key. -/
def getEntry {α : Type} : List (String × α) → String → Option α
  | [], _ => none
  | p :: l, k => if p.1 = k then some p.2 else getEntry l k

/-- Keys of an association list (the embedding of `HashMap::keys`). -/
def keysOf {α : Type} (l : List (String × α)) : List String := l.map Prod.fst

@[simp] theorem getEntry_nil {α : Type} (k : String) : getEntry ([] : List (String × α)) k = none := rfl

theorem getEntry_cons {α : Type} (p : String × α) (l : List (String × α)) (k : String) :
    getEntry (p :: l) k = if p.1 = k then some p.2 else getEntry l k := rfl

theorem getEntry_pairMap {f : String → ℚ} {l : List String} {k : String} (h : k ∈ l) :
    getEntry (l.map (fun u => (u, f u))) k = some (f k) := by
  induction l with
  | nil => cases h
  | cons a l ih =>
    simp only [List.map_cons, getEntry_cons]
    by_cases hak : a = k
    · subst hak; simp
    · simp only [hak, if_false]
      rcases List.mem_cons.mp h with h | h
      · exact absurd h.symm hak
      · exact ih h

theorem getEntry_pairMap_not_mem {f : String → ℚ} {l : List String} {k : String} (h : k ∉ l) :
    getEntry (l.map (fun u => (u, f u))) k = none := by
  induction l with
  | nil => rfl
  | cons a l ih =>
    simp only [List.map_cons, getEntry_cons]
    have hak : a ≠ k := fun e => h (e ▸ List.mem_cons_self a l)
    simp only [hak, if_false]
    exact ih (fun hm => h (List.mem_cons_of_mem a hm))

theorem getEntry_isSome_iff_mem_keys {α : Type} (l : List (String × α)) (k : String) :
    (getEntry l k).isSome ↔ k ∈ keysOf l := by
  induction l with
  | nil => simp [keysOf]
  | cons p l ih =>
    simp only [getEntry_cons, keysOf, List.map_cons, List.mem_cons]
    by_cases h : p.1 = k
    · simp [h]
    · simp only [h, if_false]
      have hne : ¬ k = p.1 := fun e => h e.symm
      rw [show (k = p.1 ↔ False) by simp [hne]]
      simpa [keysOf] using ih

theorem getEntry_of_mem {α : Type} {l : List (String × α)} (hnd : (keysOf l).Nodup)
    {p : String × α} (hp : p ∈ l) : getEntry l p.1 = some p.2 := by
  induction l with
  | nil => cases hp
  | cons q l ih =>
    rcases List.mem_cons.mp hp with h | h
    · subst h; simp [getEntry_cons]
    · have hq : q.1 ≠ p.1 := by
        intro e
        have : q.1 ∈ keysOf l := e ▸ (List.mem_map.mpr ⟨p, h, rfl⟩)
        exact (List.nodup_cons.mp (by simpa [keysOf] using hnd)).1 this
      rw [getEntry_cons, if_neg hq]
      exact ih (List.nodup_cons.mp (by simpa [keysOf] using hnd)).2 h

theorem mem_of_getEntry_some {α : Type} {l : List (String × α)} {k : String} {v : α}
    (h : getEntry l k = some v) : (k, v) ∈ l := by
  induction l with
  | nil => cases h
  | cons p l ih =>
    rw [getEntry_cons] at h
    by_cases hk : p.1 = k
    · rw [if_pos hk] at h
      exact List.mem_cons.mpr (Or.inl (by cases p; cases h; simp_all))
    · rw [if_neg hk] at h
      exact List.mem_cons_of_mem p (ih h)

/-! ## The Authority Scorer: `indexer/algorithms/pagerank.rs`

`pub type LinkGraph = HashMap<String, HashSet<String>>;`
`pub type PageRanks = HashMap<String, f64>;`

The three constants of `pagerank.rs` (lines 8–10). -/

abbrev LinkGraph := List (String × List String)
abbrev PageRanks := List (String × ℚ)

def DAMPING_FACTOR : ℚ := 85/100
def MAX_ITERATIONS : ℕ := 100
def CONVERGENCE_THRESHOLD : ℚ := 1/10000

/-- Well-formedness inherited from the Rust container types: `HashMap` keys are
distinct, and each `HashSet` of outgoing links holds distinct elements. -/
def WFGraph (g : LinkGraph) : Prop :=
  (keysOf g).Nodup ∧ ∀ p ∈ g, p.2.Nodup

instance (g : LinkGraph) : Decidable (WFGraph g) := by
  unfold WFGraph; infer_instance

/-- `ranks.get(url).unwrap_or(&0.0)` — rank lookup with default `0.0`. -/
def rankOf (r : PageRanks) (u : String) : ℚ := (getEntry r u).getD 0

/-- The node universe (`all_urls` in `calculate_pagerank`): all keys chained with
all link targets, collected into a set. -/
def allUrls (g : LinkGraph) : List String :=
  (g.map Prod.fst ++ (g.map Prod.snd).flatten).dedup

/-- `num_pages = all_urls.len() as f64`. -/
def numPages (g : LinkGraph) : ℚ := ((allUrls g).length : ℚ)

/-- `initial_rank = 1.0 / num_pages`. -/
def initialRank (g : LinkGraph) : ℚ := 1 / numPages g

/-- `ranks` initialisation: every universe node is mapped to `initial_rank`. -/
def initRanks (g : LinkGraph) : PageRanks :=
  (allUrls g).map (fun url => (url, initialRank g))

/-- The reverse adjacency (`incoming_links`): the sources that link to `t`.
Built from the graph entries, one occurrence per source entry containing `t`. -/
def incoming (g : LinkGraph) (t : String) : List String :=
  (g.filter (fun p => t ∈ p.2)).map Prod.fst

/-- One source's contribution inside the per-node update:
`source_out_degree = link_graph.get(source_url).map_or(1, |links| links.len())`,
then `source_rank / source_out_degree` guarded by `source_out_degree > 0.0`. -/
def sourceContribution (g : LinkGraph) (r : PageRanks) (s : String) : ℚ :=
  let deg : ℕ := ((getEntry g s).map List.length).getD 1
  if 0 < deg then rankOf r s / (deg : ℚ) else 0

/-- `rank_from_links`: the sum of contributions over the incoming sources of `u`
(`0.0` when `u` has no incoming-links entry, which the empty sum also yields). -/
def rankFromLinks (g : LinkGraph) (r : PageRanks) (u : String) : ℚ :=
  ((incoming g u).map (sourceContribution g r)).sum

/-- The per-node synchronous update:
`new_rank = random_jump_rank + DAMPING_FACTOR * rank_from_links` with
`random_jump_rank = (1.0 - DAMPING_FACTOR) / num_pages`. -/
def stepRank (g : LinkGraph) (r : PageRanks) (u : String) : ℚ :=
  (1 - DAMPING_FACTOR) / numPages g + DAMPING_FACTOR * rankFromLinks g r u

/-- One whole iteration (`new_ranks`): every universe node updated from the old map. -/
def updateRanks (g : LinkGraph) (r : PageRanks) : PageRanks :=
  (allUrls g).map (fun url => (url, stepRank g r url))

/-- `total_change`: `Σ |new_rank - old_rank|` over the universe. -/
def totalChange (g : LinkGraph) (r newR : PageRanks) : ℚ :=
  ((allUrls g).map (fun url => |rankOf newR url - rankOf r url|)).sum

/-- The iteration loop of `calculate_pagerank` (lines 60–104): up to the given
number of iterations; after each update, stop if the total change fell below
`CONVERGENCE_THRESHOLD`, returning the ranks just assigned. -/
def pagerankLoop (g : LinkGraph) : ℕ → PageRanks → PageRanks
  | 0, r => r
  | n + 1, r =>
    let newR := updateRanks g r
    if totalChange g r newR < CONVERGENCE_THRESHOLD then newR
    else pagerankLoop g n newR

/-- `calculate_pagerank` of `indexer/algorithms/pagerank.rs`: empty graph ↦ empty
map, otherwise run the loop for `MAX_ITERATIONS` from the uniform initial ranks. -/
def calculate_pagerank (g : LinkGraph) : PageRanks :=
  if g = [] then [] else pagerankLoop g MAX_ITERATIONS (initRanks g)

/-- The `n`-fold unguarded synchronous update from the initial ranks: the sequence
of rank maps the loop walks through (ignoring the convergence early exit). -/
def iterRanks (g : LinkGraph) : ℕ → PageRanks
  | 0 => initRanks g
  | n + 1 => updateRanks g (iterRanks g n)

/-- Sum of the ranks over the whole node universe. -/
def rankSum (g : LinkGraph) (r : PageRanks) : ℚ :=
  ((allUrls g).map (rankOf r)).sum

/-- A node is dangling when it has an absent key or an empty outgoing-edge set. -/
def NoDanglingNodes (g : LinkGraph) : Prop :=
  ∀ u ∈ allUrls g, ∃ ls, getEntry g u = some ls ∧ ls ≠ []

instance (g : LinkGraph) : Decidable (NoDanglingNodes g) := by
  unfold NoDanglingNodes
  refine List.decidableBAll _ _

/-! ### Structural facts about the universe and the rank maps -/

theorem allUrls_nodup (g : LinkGraph) : (allUrls g).Nodup := List.nodup_dedup _

theorem mem_allUrls {g : LinkGraph} {u : String} :
    u ∈ allUrls g ↔ u ∈ keysOf g ∨ ∃ p ∈ g, u ∈ p.2 := by
  simp only [allUrls, List.mem_dedup, List.mem_append, keysOf, List.mem_flatten, List.mem_map]
  constructor
  · rintro (h | ⟨l, ⟨p, hp, rfl⟩, hu⟩)
    · exact Or.inl h
    · exact Or.inr ⟨p, hp, hu⟩
  · rintro (h | ⟨p, hp, hu⟩)
    · exact Or.inl h
    · exact Or.inr ⟨p.2, ⟨p, hp, rfl⟩, hu⟩

theorem key_mem_allUrls {g : LinkGraph} {p : String × List String} (hp : p ∈ g) :
    p.1 ∈ allUrls g :=
  mem_allUrls.mpr (Or.inl (List.mem_map.mpr ⟨p, hp, rfl⟩))

theorem target_mem_allUrls {g : LinkGraph} {p : String × List String} (hp : p ∈ g)
    {t : String} (ht : t ∈ p.2) : t ∈ allUrls g :=
  mem_allUrls.mpr (Or.inr ⟨p, hp, ht⟩)

theorem allUrls_ne_nil {g : LinkGraph} (hg : g ≠ []) : allUrls g ≠ [] := by
  cases g with
  | nil => exact absurd rfl hg
  | cons p g' =>
    intro h
    have : p.1 ∈ allUrls (p :: g') := key_mem_allUrls (List.mem_cons_self p g')
    rw [h] at this
    cases this

theorem numPages_pos {g : LinkGraph} (hg : g ≠ []) : 0 < numPages g := by
  have h := allUrls_ne_nil hg
  have : 0 < (allUrls g).length := List.length_pos.mpr h
  unfold numPages
  exact_mod_cast this

theorem numPages_nonneg (g : LinkGraph) : 0 ≤ numPages g := by
  unfold numPages; positivity

theorem rankOf_initRanks {g : LinkGraph} {u : String} (h : u ∈ allUrls g) :
    rankOf (initRanks g) u = initialRank g := by
  unfold rankOf initRanks
  rw [getEntry_pairMap h]
  rfl

theorem getEntry_initRanks {g : LinkGraph} {u : String} (h : u ∈ allUrls g) :
    getEntry (initRanks g) u = some (initialRank g) :=
  getEntry_pairMap h

theorem rankOf_updateRanks {g : LinkGraph} {r : PageRanks} {u : String} (h : u ∈ allUrls g) :
    rankOf (updateRanks g r) u = stepRank g r u := by
  unfold rankOf updateRanks
  rw [getEntry_pairMap h]
  rfl

theorem keysOf_updateRanks (g : LinkGraph) (r : PageRanks) :
    keysOf (updateRanks g r) = allUrls g := by
  simp only [keysOf, updateRanks, List.map_map]
  exact List.map_id'' (fun _ => rfl) _

theorem keysOf_initRanks (g : LinkGraph) : keysOf (initRanks g) = allUrls g := by
  simp only [keysOf, initRanks, List.map_map]
  exact List.map_id'' (fun _ => rfl) _

/-! ### The loop characterised as repeated synchronous updates -/

/-- `k`-fold synchronous update starting from an arbitrary rank map. -/
def applyUpd (g : LinkGraph) (r : PageRanks) : ℕ → PageRanks
  | 0 => r
  | n + 1 => updateRanks g (applyUpd g r n)

theorem iterRanks_eq_applyUpd (g : LinkGraph) : ∀ n, iterRanks g n = applyUpd g (initRanks g) n
  | 0 => rfl
  | n + 1 => by rw [iterRanks, applyUpd, iterRanks_eq_applyUpd g n]

theorem applyUpd_shift (g : LinkGraph) (r : PageRanks) :
    ∀ j, applyUpd g (updateRanks g r) j = applyUpd g r (j + 1)
  | 0 => rfl
  | j + 1 => by rw [applyUpd, applyUpd_shift g r j]; rfl

/-- Change produced by the `j`-th update of the loop (`j` counted from `0`),
running from the initial ranks. -/
def chgAt (g : LinkGraph) (j : ℕ) : ℚ :=
  totalChange g (iterRanks g j) (iterRanks g (j + 1))

theorem pagerankLoop_succ (g : LinkGraph) (n : ℕ) (r : PageRanks) :
    pagerankLoop g (n + 1) r =
      if totalChange g r (updateRanks g r) < CONVERGENCE_THRESHOLD then updateRanks g r
      else pagerankLoop g n (updateRanks g r) := rfl

theorem pagerankLoop_spec (g : LinkGraph) : ∀ (n : ℕ) (r : PageRanks),
    (pagerankLoop g n r = applyUpd g r n ∧
      ∀ j < n, ¬ totalChange g (applyUpd g r j) (applyUpd g r (j + 1)) < CONVERGENCE_THRESHOLD) ∨
    (∃ k < n, pagerankLoop g n r = applyUpd g r (k + 1) ∧
      totalChange g (applyUpd g r k) (applyUpd g r (k + 1)) < CONVERGENCE_THRESHOLD ∧
      ∀ j < k, ¬ totalChange g (applyUpd g r j) (applyUpd g r (j + 1)) < CONVERGENCE_THRESHOLD)
  | 0, r => Or.inl ⟨rfl, fun j hj => absurd hj (Nat.not_lt_zero j)⟩
  | n + 1, r => by
    by_cases h0 : totalChange g r (updateRanks g r) < CONVERGENCE_THRESHOLD
    · refine Or.inr ⟨0, Nat.succ_pos n, ?_, ?_, fun j hj => absurd hj (Nat.not_lt_zero j)⟩
      · rw [pagerankLoop_succ, if_pos h0]; rfl
      · exact h0
    · rcases pagerankLoop_spec g n (updateRanks g r) with ⟨heq, hall⟩ | ⟨k, hk, heq, hconv, hall⟩
      · refine Or.inl ⟨?_, ?_⟩
        · rw [pagerankLoop_succ, if_neg h0, heq, applyUpd_shift]
        · intro j hj
          cases j with
          | zero => exact h0
          | succ j' =>
            have := hall j' (Nat.lt_of_succ_lt_succ hj)
            rwa [applyUpd_shift, applyUpd_shift] at this
      · refine Or.inr ⟨k + 1, Nat.succ_lt_succ hk, ?_, ?_, ?_⟩
        · rw [pagerankLoop_succ, if_neg h0, heq, applyUpd_shift]
        · rwa [applyUpd_shift, applyUpd_shift] at hconv
        · intro j hj
          cases j with
          | zero => exact h0
          | succ j' =>
            have := hall j' (Nat.lt_of_succ_lt_succ hj)
            rwa [applyUpd_shift, applyUpd_shift] at this

/-- The returned ranks are some `k`-fold update of the initial ranks, with
`1 ≤ k ≤ MAX_ITERATIONS`, no early iteration converged, and early exit only on
convergence. -/
theorem calculate_pagerank_spec {g : LinkGraph} (hg : g ≠ []) :
    ∃ k, 1 ≤ k ∧ k ≤ MAX_ITERATIONS ∧ calculate_pagerank g = iterRanks g k ∧
      (∀ j, j + 1 < k → ¬ chgAt g j < CONVERGENCE_THRESHOLD) ∧
      (k < MAX_ITERATIONS → chgAt g (k - 1) < CONVERGENCE_THRESHOLD) := by
  have hcp : calculate_pagerank g = pagerankLoop g MAX_ITERATIONS (initRanks g) := by
    unfold calculate_pagerank
    rw [if_neg hg]
  rcases pagerankLoop_spec g MAX_ITERATIONS (initRanks g) with ⟨heq, hall⟩ | ⟨k, hk, heq, hconv, hall⟩
  · refine ⟨MAX_ITERATIONS, by norm_num [MAX_ITERATIONS], le_refl _, ?_, ?_, ?_⟩
    · rw [hcp, heq, iterRanks_eq_applyUpd]
    · intro j hj
      have := hall j (Nat.lt_of_succ_lt hj)
      rwa [chgAt, iterRanks_eq_applyUpd, iterRanks_eq_applyUpd]
    · intro h
      exact absurd h (lt_irrefl _)
  · refine ⟨k + 1, Nat.succ_le_succ (Nat.zero_le k), hk, ?_, ?_, ?_⟩
    · rw [hcp, heq, iterRanks_eq_applyUpd]
    · intro j hj
      have := hall j (Nat.lt_of_succ_lt_succ hj)
      rwa [chgAt, iterRanks_eq_applyUpd, iterRanks_eq_applyUpd]
    · intro _
      simpa [chgAt, iterRanks_eq_applyUpd] using hconv

/-- When the concrete change sequence first drops below the threshold at index `k`
(with `k + 1 ≤ MAX_ITERATIONS`), the function returns exactly the `(k+1)`-fold update. -/
theorem calculate_pagerank_eq_of_conv {g : LinkGraph} {k : ℕ} (hg : g ≠ [])
    (hk : k + 1 ≤ MAX_ITERATIONS) (hconv : chgAt g k < CONVERGENCE_THRESHOLD)
    (hbefore : ∀ j < k, ¬ chgAt g j < CONVERGENCE_THRESHOLD) :
    calculate_pagerank g = iterRanks g (k + 1) := by
  rcases calculate_pagerank_spec hg with ⟨m, hm1, hmMax, heq, hallm, hconvm⟩
  have hmk : m = k + 1 := by
    rcases Nat.lt_trichotomy m (k + 1) with h | h | h
    · -- m ≤ k: then m < MAX_ITERATIONS would give convergence at m-1 < k, contradiction
      have hmlt : m < MAX_ITERATIONS := lt_of_lt_of_le (Nat.lt_of_lt_of_le h hk) (le_refl _)
      have hc := hconvm hmlt
      have hm1' : m - 1 < k := by omega
      exact absurd hc (hbefore (m - 1) hm1')
    · exact h
    · -- m > k + 1: then j = k has j + 1 < m, so no convergence at k, contradiction
      have : k + 1 < m := h
      exact absurd hconv (hallm k this)
  rw [heq, hmk]

/-! ### Non-negativity of ranks -/

theorem initialRank_nonneg (g : LinkGraph) : 0 ≤ initialRank g := by
  unfold initialRank
  exact div_nonneg zero_le_one (numPages_nonneg g)

theorem rankOf_nonneg_initRanks (g : LinkGraph) (u : String) : 0 ≤ rankOf (initRanks g) u := by
  by_cases h : u ∈ allUrls g
  · rw [rankOf_initRanks h]; exact initialRank_nonneg g
  · unfold rankOf initRanks
    rw [getEntry_pairMap_not_mem h]
    norm_num

theorem stepRank_nonneg {g : LinkGraph} {r : PageRanks} (hr : ∀ u, 0 ≤ rankOf r u)
    (u : String) : 0 ≤ stepRank g r u := by
  unfold stepRank
  have h1 : (0:ℚ) ≤ (1 - DAMPING_FACTOR) / numPages g := by
    apply div_nonneg _ (numPages_nonneg g)
    norm_num [DAMPING_FACTOR]
  have h2 : 0 ≤ rankFromLinks g r u := by
    unfold rankFromLinks
    apply List.sum_nonneg
    intro x hx
    rcases List.mem_map.mp hx with ⟨s, _, rfl⟩
    unfold sourceContribution
    by_cases hd : 0 < ((getEntry g s).map List.length).getD 1
    · simp only [hd, if_true]
      exact div_nonneg (hr s) (by positivity)
    · simp only [hd, if_false]
      exact le_refl 0
  have h3 : (0:ℚ) ≤ DAMPING_FACTOR := by norm_num [DAMPING_FACTOR]
  nlinarith

theorem rankOf_nonneg_updateRanks {g : LinkGraph} {r : PageRanks}
    (hr : ∀ u, 0 ≤ rankOf r u) (u : String) : 0 ≤ rankOf (updateRanks g r) u := by
  by_cases h : u ∈ allUrls g
  · rw [rankOf_updateRanks h]; exact stepRank_nonneg hr u
  · unfold rankOf updateRanks
    rw [getEntry_pairMap_not_mem h]
    norm_num

theorem rankOf_nonneg_applyUpd (g : LinkGraph) (r : PageRanks) (hr : ∀ u, 0 ≤ rankOf r u) :
    ∀ n u, 0 ≤ rankOf (applyUpd g r n) u
  | 0, u => hr u
  | n + 1, u => rankOf_nonneg_updateRanks (rankOf_nonneg_applyUpd g r hr n) u

theorem rankOf_nonneg_iterRanks (g : LinkGraph) (n : ℕ) (u : String) :
    0 ≤ rankOf (iterRanks g n) u := by
  rw [iterRanks_eq_applyUpd]
  exact rankOf_nonneg_applyUpd g _ (rankOf_nonneg_initRanks g) n u

theorem rankOf_nonneg_calculate_pagerank (g : LinkGraph) (u : String) :
    0 ≤ rankOf (calculate_pagerank g) u := by
  by_cases hg : g = []
  · subst hg
    unfold calculate_pagerank
    norm_num [rankOf, getEntry]
  · rcases calculate_pagerank_spec hg with ⟨k, _, _, heq, _, _⟩
    rw [heq]
    exact rankOf_nonneg_iterRanks g k u

/-! ### Conservation of the rank sum on graphs without dangling nodes

The per-iteration identity `Σ new = (1 - d) + d * Σ old` holds whenever every
universe node has a non-empty outgoing-edge entry; the code has no dangling-mass
term, so on graphs with dangling nodes the analogous identity fails (see the
counterexamples below). -/

theorem sum_map_add_distrib {α : Type} (l : List α) (f h : α → ℚ) :
    (l.map (fun x => f x + h x)).sum = (l.map f).sum + (l.map h).sum := by
  induction l with
  | nil => simp
  | cons a l ih => simp [ih]; ring

theorem sum_map_ite_mem (U ts : List String) (c : ℚ) :
    (U.map (fun u => if u ∈ ts then c else 0)).sum = (U.countP (fun u => decide (u ∈ ts))) * c := by
  induction U with
  | nil => simp
  | cons a U ih =>
    by_cases h : a ∈ ts
    · simp only [List.map_cons, List.sum_cons, if_pos h, ih, List.countP_cons]
      simp [h]
      ring
    · simp only [List.map_cons, List.sum_cons, if_neg h, ih, List.countP_cons]
      simp [h]

theorem incoming_cons (p : String × List String) (g : LinkGraph) (u : String) :
    incoming (p :: g) u = if u ∈ p.2 then p.1 :: incoming g u else incoming g u := by
  unfold incoming
  rw [List.filter_cons]
  by_cases h : u ∈ p.2
  · simp [h]
  · simp [h]

theorem sum_over_incoming (U : List String) (f : String → ℚ) :
    ∀ g : LinkGraph,
      (U.map (fun u => ((incoming g u).map f).sum)).sum
        = (g.map (fun p => ((U.countP (fun u => decide (u ∈ p.2))) : ℚ) * f p.1)).sum
  | [] => by simp [incoming]
  | p :: g => by
    have hpt : ∀ u ∈ U, ((incoming (p :: g) u).map f).sum
        = (if u ∈ p.2 then f p.1 else 0) + ((incoming g u).map f).sum := by
      intro u _
      rw [incoming_cons]
      by_cases h : u ∈ p.2
      · simp [h]
      · simp [h]
    rw [List.map_congr_left hpt, sum_map_add_distrib, sum_map_ite_mem,
      sum_over_incoming U f g, List.map_cons, List.sum_cons]

theorem countP_mem_eq_length {ts U : List String} (hts : ts.Nodup)
    (hsub : ∀ t ∈ ts, t ∈ U) (hU : U.Nodup) :
    U.countP (fun u => decide (u ∈ ts)) = ts.length := by
  rw [List.countP_eq_length_filter]
  have hperm : (U.filter (fun u => decide (u ∈ ts))).Perm ts := by
    rw [List.perm_ext_iff_of_nodup (hU.filter _) hts]
    intro a
    simp only [List.mem_filter, decide_eq_true_eq]
    exact ⟨fun h => h.2, fun h => ⟨hsub a h, h⟩⟩
  exact hperm.length_eq

theorem keys_perm_allUrls {g : LinkGraph} (hwf : WFGraph g) (hnd : NoDanglingNodes g) :
    (keysOf g).Perm (allUrls g) := by
  rw [List.perm_ext_iff_of_nodup hwf.1 (allUrls_nodup g)]
  intro u
  constructor
  · intro h
    rcases List.mem_map.mp h with ⟨p, hp, rfl⟩
    exact key_mem_allUrls hp
  · intro h
    rcases hnd u h with ⟨ls, hls, _⟩
    exact (getEntry_isSome_iff_mem_keys g u).mp (by rw [hls]; rfl)

theorem rankSum_updateRanks {g : LinkGraph} (hg : g ≠ []) (hwf : WFGraph g)
    (hnd : NoDanglingNodes g) (r : PageRanks) :
    rankSum g (updateRanks g r) = (1 - DAMPING_FACTOR) + DAMPING_FACTOR * rankSum g r := by
  have hN : numPages g ≠ 0 := ne_of_gt (numPages_pos hg)
  have h1 : rankSum g (updateRanks g r)
      = ((allUrls g).map (fun u => stepRank g r u)).sum := by
    unfold rankSum
    exact congrArg List.sum (List.map_congr_left (fun u hu => rankOf_updateRanks hu))
  rw [h1]
  unfold stepRank
  rw [sum_map_add_distrib]
  have hconst : ((allUrls g).map (fun _ => (1 - DAMPING_FACTOR) / numPages g)).sum
      = (1 - DAMPING_FACTOR) := by
    rw [List.map_const', List.sum_replicate, nsmul_eq_mul]
    unfold numPages at hN ⊢
    field_simp
  have hlinks : ((allUrls g).map (fun u => DAMPING_FACTOR * rankFromLinks g r u)).sum
      = DAMPING_FACTOR * rankSum g r := by
    rw [List.sum_map_mul_left]
    have hswap : ((allUrls g).map (fun u => rankFromLinks g r u)).sum
        = (g.map (fun p => (((allUrls g).countP (fun u => decide (u ∈ p.2))) : ℚ)
            * sourceContribution g r p.1)).sum := by
      unfold rankFromLinks
      exact sum_over_incoming (allUrls g) (sourceContribution g r) g
    rw [hswap]
    have hent : ∀ p ∈ g, (((allUrls g).countP (fun u => decide (u ∈ p.2))) : ℚ)
        * sourceContribution g r p.1 = rankOf r p.1 := by
      intro p hp
      have hcount : (allUrls g).countP (fun u => decide (u ∈ p.2)) = p.2.length :=
        countP_mem_eq_length (hwf.2 p hp) (fun t ht => target_mem_allUrls hp ht) (allUrls_nodup g)
      have hget : getEntry g p.1 = some p.2 := getEntry_of_mem hwf.1 hp
      rcases hnd p.1 (key_mem_allUrls hp) with ⟨ls, hls, hne⟩
      rw [hget] at hls
      have hlsp : p.2 = ls := by injection hls
      subst hlsp
      have hlen : 0 < p.2.length := List.length_pos.mpr hne
      unfold sourceContribution
      rw [hget]
      simp only [Option.map_some', Option.getD_some, hlen, if_true]
      rw [hcount]
      have : (p.2.length : ℚ) ≠ 0 := by exact_mod_cast Nat.pos_iff_ne_zero.mp hlen
      field_simp
    rw [List.map_congr_left hent]
    have : (g.map (fun p => rankOf r p.1)).sum = ((keysOf g).map (rankOf r)).sum := by
      unfold keysOf
      rw [List.map_map]
      rfl
    rw [this]
    have hperm := (keys_perm_allUrls hwf hnd).map (rankOf r)
    unfold rankSum
    rw [hperm.sum_eq]
  rw [hconst, hlinks]

theorem rankSum_initRanks {g : LinkGraph} (hg : g ≠ []) : rankSum g (initRanks g) = 1 := by
  have hN : numPages g ≠ 0 := ne_of_gt (numPages_pos hg)
  unfold rankSum
  have h1 : ((allUrls g).map (rankOf (initRanks g))).sum
      = ((allUrls g).map (fun _ => initialRank g)).sum :=
    congrArg List.sum (List.map_congr_left (fun u hu => rankOf_initRanks hu))
  rw [h1, List.map_const', List.sum_replicate, nsmul_eq_mul]
  unfold initialRank numPages at hN ⊢
  field_simp

theorem rankSum_iterRanks {g : LinkGraph} (hg : g ≠ []) (hwf : WFGraph g)
    (hnd : NoDanglingNodes g) : ∀ n, rankSum g (iterRanks g n) = 1
  | 0 => rankSum_initRanks hg
  | n + 1 => by
    have : iterRanks g (n + 1) = updateRanks g (iterRanks g n) := rfl
    rw [this, rankSum_updateRanks hg hwf hnd, rankSum_iterRanks hg hwf hnd n]
    norm_num [DAMPING_FACTOR]

theorem rankSum_calculate_pagerank {g : LinkGraph} (hg : g ≠ []) (hwf : WFGraph g)
    (hnd : NoDanglingNodes g) : rankSum g (calculate_pagerank g) = 1 := by
  rcases calculate_pagerank_spec hg with ⟨k, _, _, heq, _, _⟩
  rw [heq]
  exact rankSum_iterRanks hg hwf hnd k

theorem keysOf_iterRanks (g : LinkGraph) : ∀ n, keysOf (iterRanks g n) = allUrls g
  | 0 => keysOf_initRanks g
  | n + 1 => keysOf_updateRanks g (iterRanks g n)

/-! ### The update rule the spec describes, for comparison with the code

The next three definitions follow the spec's §4.2 wording (dangling-node
classification, `dangling_mass`, `base`) so that the spec's per-node update can
be compared against the code's; they are deliberately NOT read off the source,
which has no dangling-mass term. -/

/-- Modelled from the spec: nodes with an absent key or an empty outgoing-edge
set are dangling. -/
def danglingNodes (g : LinkGraph) : List String :=
  (allUrls g).filter (fun u =>
    match getEntry g u with
    | none => true
    | some ls => ls.isEmpty)

/-- Modelled from the spec:
`dangling_mass = damping * (sum of current ranks of dangling nodes) / |universe|`. -/
def specDanglingMass (g : LinkGraph) (r : PageRanks) : ℚ :=
  DAMPING_FACTOR * ((danglingNodes g).map (rankOf r)).sum / numPages g

/-- Modelled from the spec: `base = (1 - damping) / |universe| + dangling_mass`. -/
def specBase (g : LinkGraph) (r : PageRanks) : ℚ :=
  (1 - DAMPING_FACTOR) / numPages g + specDanglingMass g r

/-- Modelled from the spec: the claimed per-node update
`new_rank = base + damping * Σ (rank(source) / out_degree(source))`. -/
def specNewRank (g : LinkGraph) (r : PageRanks) (u : String) : ℚ :=
  specBase g r + DAMPING_FACTOR * rankFromLinks g r u

/-- A one-edge graph whose target `"b"` is dangling (absent key). -/
def gDangling : LinkGraph := [("a", ["b"])]

/-- A two-node cycle: a well-formed graph with no dangling nodes. -/
def gTwoCycle : LinkGraph := [("a", ["b"]), ("b", ["a"])]

theorem calculate_pagerank_gDangling : calculate_pagerank gDangling = iterRanks gDangling 3 := by
  have h0 : ¬ chgAt gDangling 0 < CONVERGENCE_THRESHOLD := by
    norm_num +decide [chgAt, totalChange, iterRanks, updateRanks, stepRank, initRanks, allUrls,
      rankFromLinks, incoming, sourceContribution, rankOf, getEntry, numPages, initialRank,
      DAMPING_FACTOR, CONVERGENCE_THRESHOLD, List.dedup, List.pwFilter, gDangling, abs]
  have h1 : ¬ chgAt gDangling 1 < CONVERGENCE_THRESHOLD := by
    norm_num +decide [chgAt, totalChange, iterRanks, updateRanks, stepRank, initRanks, allUrls,
      rankFromLinks, incoming, sourceContribution, rankOf, getEntry, numPages, initialRank,
      DAMPING_FACTOR, CONVERGENCE_THRESHOLD, List.dedup, List.pwFilter, gDangling, abs]
  have h2 : chgAt gDangling 2 < CONVERGENCE_THRESHOLD := by
    norm_num +decide [chgAt, totalChange, iterRanks, updateRanks, stepRank, initRanks, allUrls,
      rankFromLinks, incoming, sourceContribution, rankOf, getEntry, numPages, initialRank,
      DAMPING_FACTOR, CONVERGENCE_THRESHOLD, List.dedup, List.pwFilter, gDangling, abs]
  refine calculate_pagerank_eq_of_conv (by simp [gDangling]) (by norm_num [MAX_ITERATIONS]) h2 ?_
  intro j hj
  interval_cases j
  · exact h0
  · exact h1

/-! ## Claim C1 — rank positivity and the sum invariant -/

/-- C1, counterexample: on the one-edge graph with a dangling target, the
authority scores do NOT sum to 1 (within 1e-6): the first iteration already sums
to 23/40 and the returned result sums to 171/800, so rank mass is lost. -/
theorem C1_sum_counterexample :
    rankSum gDangling (iterRanks gDangling 1) = 23/40 ∧
    rankSum gDangling (calculate_pagerank gDangling) = 171/800 ∧
    ¬ |(23:ℚ)/40 - 1| ≤ 1/1000000 ∧ ¬ |(171:ℚ)/800 - 1| ≤ 1/1000000 := by
  refine ⟨?_, ?_, by norm_num [abs], by norm_num [abs]⟩
  · norm_num +decide [rankSum, iterRanks, updateRanks, stepRank, initRanks, allUrls,
      rankFromLinks, incoming, sourceContribution, rankOf, getEntry, numPages, initialRank,
      DAMPING_FACTOR, List.dedup, List.pwFilter, gDangling]
  · rw [calculate_pagerank_gDangling]
    norm_num +decide [rankSum, iterRanks, updateRanks, stepRank, initRanks, allUrls,
      rankFromLinks, incoming, sourceContribution, rankOf, getEntry, numPages, initialRank,
      DAMPING_FACTOR, List.dedup, List.pwFilter, gDangling]

/-- C1, amended: authority scores are non-negative at every iteration and at the
returned result, for every link graph; the rank sum equals 1 at every iteration
and at the returned result only under the additional hypothesis that the graph
has no dangling nodes (with dangling nodes, mass is lost — see the
counterexample). -/
theorem C1_nonneg_and_sum_invariant :
    (∀ g u, 0 ≤ rankOf (calculate_pagerank g) u) ∧
    (∀ g n u, 0 ≤ rankOf (iterRanks g n) u) ∧
    (∀ g : LinkGraph, g ≠ [] → WFGraph g → NoDanglingNodes g →
      (∀ n, rankSum g (iterRanks g n) = 1) ∧ rankSum g (calculate_pagerank g) = 1) :=
  ⟨rankOf_nonneg_calculate_pagerank, rankOf_nonneg_iterRanks,
    fun _ hg hwf hnd => ⟨rankSum_iterRanks hg hwf hnd, rankSum_calculate_pagerank hg hwf hnd⟩⟩

/-- C1, witness: the amended theorem applied at the two-node cycle and at the
dangling example. -/
theorem C1_witness :
    0 ≤ rankOf (calculate_pagerank gDangling) "b" ∧
    rankSum gTwoCycle (iterRanks gTwoCycle 7) = 1 ∧
    rankSum gTwoCycle (calculate_pagerank gTwoCycle) = 1 :=
  ⟨C1_nonneg_and_sum_invariant.1 gDangling "b",
    (C1_nonneg_and_sum_invariant.2.2 gTwoCycle (by decide) (by decide) (by decide)).1 7,
    (C1_nonneg_and_sum_invariant.2.2 gTwoCycle (by decide) (by decide) (by decide)).2⟩

/-! ## Claim C2 — the per-iteration update has no dangling-mass term -/

/-- C2, counterexample: at the first iteration on the one-edge graph, the spec's
update (with dangling-mass redistribution) gives node "a" the new rank 23/80,
while the code's update gives 3/40: the code computes no dangling mass. -/
theorem C2_dangling_mass_counterexample :
    specNewRank gDangling (initRanks gDangling) "a" = 23/80 ∧
    rankOf (updateRanks gDangling (initRanks gDangling)) "a" = 3/40 ∧
    (23:ℚ)/80 ≠ 3/40 := by
  refine ⟨?_, ?_, by norm_num⟩
  · norm_num +decide [specNewRank, specBase, specDanglingMass, danglingNodes, initRanks,
      allUrls, rankFromLinks, incoming, sourceContribution, rankOf, getEntry, numPages,
      initialRank, DAMPING_FACTOR, List.dedup, List.pwFilter, gDangling]
  · norm_num +decide [updateRanks, stepRank, initRanks, allUrls, rankFromLinks, incoming,
      sourceContribution, rankOf, getEntry, numPages, initialRank, DAMPING_FACTOR,
      List.dedup, List.pwFilter, gDangling]

/-- C2, amended: in every iteration, every universe node's new rank is
`(1 - damping) / |universe| + damping * Σ (rank(source) / out_degree(source))`:
the base term is `(1 - damping) / |universe|` alone, identical for every node,
with no dangling-mass redistribution. -/
theorem C2_update_rule :
    (∀ (g : LinkGraph) (r : PageRanks) (u : String), u ∈ allUrls g →
      rankOf (updateRanks g r) u
        = (1 - DAMPING_FACTOR) / numPages g + DAMPING_FACTOR * rankFromLinks g r u) ∧
    (∀ (g : LinkGraph) (n : ℕ) (u : String), u ∈ allUrls g →
      rankOf (iterRanks g (n + 1)) u
        = (1 - DAMPING_FACTOR) / numPages g
            + DAMPING_FACTOR * rankFromLinks g (iterRanks g n) u) ∧
    (∀ g : LinkGraph, g ≠ [] →
      ∃ k, 1 ≤ k ∧ k ≤ MAX_ITERATIONS ∧ calculate_pagerank g = iterRanks g k) :=
  ⟨fun _ _ _ hu => rankOf_updateRanks hu,
    fun _ _ _ hu => rankOf_updateRanks hu,
    fun _ hg => by
      rcases calculate_pagerank_spec hg with ⟨k, h1, h2, h3, _, _⟩
      exact ⟨k, h1, h2, h3⟩⟩

/-- C2, witness: the amended update rule evaluated at the one-edge graph. -/
theorem C2_witness :
    rankOf (updateRanks gDangling (initRanks gDangling)) "a"
      = (1 - DAMPING_FACTOR) / numPages gDangling
          + DAMPING_FACTOR * rankFromLinks gDangling (initRanks gDangling) "a" :=
  C2_update_rule.1 gDangling (initRanks gDangling) "a" (by decide)

/-! ## Claim C6 — universe, initial ranks, and the returned map's domain -/

/-- C6: for every non-empty link graph the node universe is exactly the union of
the source keys and the link targets; every universe node starts at rank
`1 / |universe|`; and every universe node has an entry in the returned map. -/
theorem C6_universe_and_initial_ranks :
    ∀ g : LinkGraph, g ≠ [] →
      (∀ u, u ∈ allUrls g ↔ u ∈ keysOf g ∨ ∃ p ∈ g, u ∈ p.2) ∧
      (∀ u ∈ allUrls g, getEntry (initRanks g) u = some (1 / numPages g)) ∧
      (∀ u ∈ allUrls g, ∃ q, getEntry (calculate_pagerank g) u = some q) := by
  intro g hg
  refine ⟨fun u => mem_allUrls, fun u hu => getEntry_initRanks hu, fun u hu => ?_⟩
  rcases calculate_pagerank_spec hg with ⟨k, _, _, heq, _, _⟩
  have hk : u ∈ keysOf (calculate_pagerank g) := by
    rw [heq, keysOf_iterRanks]
    exact hu
  rcases Option.isSome_iff_exists.mp ((getEntry_isSome_iff_mem_keys _ u).mpr hk) with ⟨q, hq⟩
  exact ⟨q, hq⟩

/-- C6, witness: the linked-to-only node "b" of the one-edge graph is in the
universe, starts at rank 1/2, and appears in the returned map. -/
theorem C6_witness :
    ("b" ∈ allUrls gDangling ↔ "b" ∈ keysOf gDangling ∨ ∃ p ∈ gDangling, "b" ∈ p.2) ∧
    getEntry (initRanks gDangling) "b" = some (1 / numPages gDangling) ∧
    ∃ q, getEntry (calculate_pagerank gDangling) "b" = some q :=
  ⟨(C6_universe_and_initial_ranks gDangling (by decide)).1 "b",
    (C6_universe_and_initial_ranks gDangling (by decide)).2.1 "b" (by decide),
    (C6_universe_and_initial_ranks gDangling (by decide)).2.2 "b" (by decide)⟩

/-! ## Claim C7 — constants and the convergence discipline of the loop -/

/-- C7: the authority computation uses damping 0.85, at most 100 iterations, and
threshold 1e-4; the returned ranks are the k-fold synchronous update of the
initial ranks for some 1 ≤ k ≤ 100; no iteration before the last fell below the
threshold; and an early exit (k < 100) happens exactly on the iteration whose
total change fell below the threshold — hitting the cap is not an error, the
last computed ranks are returned. -/
theorem C7_constants_and_convergence :
    DAMPING_FACTOR = 85/100 ∧ MAX_ITERATIONS = 100 ∧ CONVERGENCE_THRESHOLD = 1/10000 ∧
    ∀ g : LinkGraph, g ≠ [] →
      ∃ k, 1 ≤ k ∧ k ≤ MAX_ITERATIONS ∧ calculate_pagerank g = iterRanks g k ∧
        (∀ j, j + 1 < k → ¬ chgAt g j < CONVERGENCE_THRESHOLD) ∧
        (k < MAX_ITERATIONS → chgAt g (k - 1) < CONVERGENCE_THRESHOLD) :=
  ⟨rfl, rfl, rfl, fun _ hg => calculate_pagerank_spec hg⟩

/-- C7, witness: the loop characterisation applied at the one-edge graph. -/
theorem C7_witness :
    ∃ k, 1 ≤ k ∧ k ≤ MAX_ITERATIONS ∧
      calculate_pagerank gDangling = iterRanks gDangling k ∧
      (∀ j, j + 1 < k → ¬ chgAt gDangling j < CONVERGENCE_THRESHOLD) ∧
      (k < MAX_ITERATIONS → chgAt gDangling (k - 1) < CONVERGENCE_THRESHOLD) :=
  C7_constants_and_convergence.2.2.2 gDangling (by decide)

/-! ## The scoring pass: `Spider::build_and_save_index` (spider/mod.rs)

`CrawlData` and `ScoredIndex` are the structs of spider/mod.rs; the scoring
loop (lines 127–154) is embedded as a pure function.  The `f64::log10` of the
platform is abstracted as a function parameter `log10 : ℚ → ℚ`. -/

/-- Per-page raw term frequencies (`HashMap<String, u32>` values). -/
abbrev TermCounts := List (String × ℕ)

/-- The raw data gathered during the crawl (struct `CrawlData`). -/
structure CrawlData where
  page_term_counts : List (String × TermCounts)
  doc_frequencies : List (String × ℕ)
  link_graph : LinkGraph

/-- The final, scored index (struct `ScoredIndex`): word → url → combined score. -/
structure ScoredIndex where
  scores : List (String × List (String × ℚ))

/-- `HashMap::insert` on an inner url → score map: overwrite the key's entry if
present, append otherwise. -/
def insertInner : List (String × ℚ) → String → ℚ → List (String × ℚ)
  | [], u, v => [(u, v)]
  | p :: m, u, v => if p.1 = u then (u, v) :: m else p :: insertInner m u v

/-- `scores.entry(word).or_default().insert(url, score)`. -/
def insertScore : List (String × List (String × ℚ)) → String → String → ℚ →
    List (String × List (String × ℚ))
  | [], w, u, v => [(w, [(u, v)])]
  | e :: idx, w, u, v =>
    if e.1 = w then (w, insertInner e.2 u v) :: idx else e :: insertScore idx w u v

/-- Lookup of a (word, url) score in the nested index. -/
def lookupScore (idx : List (String × List (String × ℚ))) (word url : String) : Option ℚ :=
  (getEntry idx word).bind (fun m => getEntry m url)

/-- `term_counts.values().sum::<u32>()`. -/
def totalWords (tc : TermCounts) : ℕ := (tc.map Prod.snd).sum

/-- The inner loop over one page's `(word, count)` pairs:
`tf = count / total_words`, `docs_with_word = doc_frequencies.get(word).unwrap_or(1)`,
`idf = log10(total_docs / docs_with_word)`, and
`final_score = (tf * idf) * authority_score` inserted at `(word, url)`. -/
def scorePage (log10 : ℚ → ℚ) (total_docs : ℚ) (doc_frequencies : List (String × ℕ))
    (authority_score : ℚ) (url : String) (total_words : ℚ) :
    TermCounts → List (String × List (String × ℚ)) → List (String × List (String × ℚ))
  | [], idx => idx
  | (word, count) :: tc, idx =>
    scorePage log10 total_docs doc_frequencies authority_score url total_words tc
      (insertScore idx word url
        ((count : ℚ) / total_words
          * log10 (total_docs / (((getEntry doc_frequencies word).getD 1 : ℕ) : ℚ))
          * authority_score))

/-- The outer loop over the pages: skip pages whose total word count is `0`,
otherwise score every term of the page with
`authority_score = page_ranks.get(url).unwrap_or(0.1)`. -/
def buildScores (log10 : ℚ → ℚ) (total_docs : ℚ) (doc_frequencies : List (String × ℕ))
    (page_ranks : PageRanks) :
    List (String × TermCounts) → List (String × List (String × ℚ)) →
      List (String × List (String × ℚ))
  | [], idx => idx
  | (url, tc) :: pages, idx =>
    if (totalWords tc : ℚ) = 0 then
      buildScores log10 total_docs doc_frequencies page_ranks pages idx
    else
      buildScores log10 total_docs doc_frequencies page_ranks pages
        (scorePage log10 total_docs doc_frequencies
          ((getEntry page_ranks url).getD (1/10)) url (totalWords tc : ℚ) tc idx)

/-- The pure scoring core of `build_and_save_index`:
`total_docs = page_term_counts.len()`, then the two nested loops above. -/
def build_index (log10 : ℚ → ℚ) (page_ranks : PageRanks) (cd : CrawlData) : ScoredIndex :=
  ⟨buildScores log10 (cd.page_term_counts.length : ℚ) cd.doc_frequencies page_ranks
    cd.page_term_counts []⟩

theorem getEntry_insertInner_self (m : List (String × ℚ)) (u : String) (v : ℚ) :
    getEntry (insertInner m u v) u = some v := by
  induction m with
  | nil => simp [insertInner, getEntry]
  | cons p m ih =>
    rw [insertInner]
    by_cases h : p.1 = u
    · simp [h, getEntry]
    · rw [if_neg h, getEntry_cons, if_neg h]
      exact ih

theorem getEntry_insertInner_other (m : List (String × ℚ)) {u' u : String} (h : u' ≠ u)
    (v : ℚ) : getEntry (insertInner m u' v) u = getEntry m u := by
  induction m with
  | nil => simp [insertInner, getEntry_cons, h]
  | cons p m ih =>
    rw [insertInner]
    by_cases hp : p.1 = u'
    · rw [if_pos hp, getEntry_cons, getEntry_cons, if_neg h, hp, if_neg h]
    · rw [if_neg hp, getEntry_cons, getEntry_cons]
      by_cases hpu : p.1 = u
      · rw [if_pos hpu, if_pos hpu]
      · rw [if_neg hpu, if_neg hpu]
        exact ih

theorem lookupScore_insertScore_self (idx : List (String × List (String × ℚ)))
    (w u : String) (v : ℚ) : lookupScore (insertScore idx w u v) w u = some v := by
  induction idx with
  | nil => simp [insertScore, lookupScore, getEntry_cons, getEntry_insertInner_self]
  | cons e idx ih =>
    rw [insertScore]
    by_cases h : e.1 = w
    · simp [lookupScore, h, getEntry_cons, getEntry_insertInner_self]
    · rw [if_neg h]
      unfold lookupScore
      rw [getEntry_cons, if_neg h]
      exact ih

theorem lookupScore_insertScore_other (idx : List (String × List (String × ℚ)))
    {w' u' w u : String} (h : w' ≠ w ∨ u' ≠ u) (v : ℚ) :
    lookupScore (insertScore idx w' u' v) w u = lookupScore idx w u := by
  induction idx with
  | nil =>
    rcases h with h | h
    · simp [insertScore, lookupScore, getEntry_cons, h]
    · unfold insertScore lookupScore
      rw [getEntry_cons, getEntry_nil]
      by_cases hw : w' = w
      · simp [hw, getEntry_cons, h]
      · simp [hw]
  | cons e idx ih =>
    rw [insertScore]
    by_cases he : e.1 = w'
    · rw [if_pos he]
      unfold lookupScore
      rw [getEntry_cons, getEntry_cons, ← he]
      by_cases hew : e.1 = w
      · rcases h with h | h
        · exact absurd (he.symm.trans hew) h
        · rw [if_pos hew, if_pos hew]
          simp [he, getEntry_insertInner_other e.2 h]
      · rw [if_neg hew, if_neg hew]
    · rw [if_neg he]
      unfold lookupScore
      rw [getEntry_cons, getEntry_cons]
      by_cases hew : e.1 = w
      · rw [if_pos hew, if_pos hew]
      · rw [if_neg hew, if_neg hew]
        exact ih

theorem lookupScore_scorePage_other_url (log10 : ℚ → ℚ) (td : ℚ)
    (dfs : List (String × ℕ)) (auth : ℚ) {url' url : String} (h : url' ≠ url)
    (tw : ℚ) (w : String) :
    ∀ (tc : TermCounts) (idx : List (String × List (String × ℚ))),
      lookupScore (scorePage log10 td dfs auth url' tw tc idx) w url = lookupScore idx w url
  | [], idx => rfl
  | (w₀, c₀) :: tc, idx => by
    rw [scorePage, lookupScore_scorePage_other_url log10 td dfs auth h tw w tc,
      lookupScore_insertScore_other _ (Or.inr h)]

theorem lookupScore_scorePage_other_word (log10 : ℚ → ℚ) (td : ℚ)
    (dfs : List (String × ℕ)) (auth : ℚ) (url : String) (tw : ℚ) (w u : String) :
    ∀ (tc : TermCounts) (idx : List (String × List (String × ℚ))),
      (∀ p ∈ tc, p.1 ≠ w) →
      lookupScore (scorePage log10 td dfs auth url tw tc idx) w u = lookupScore idx w u
  | [], idx, _ => rfl
  | (w₀, c₀) :: tc, idx, hall => by
    rw [scorePage,
      lookupScore_scorePage_other_word log10 td dfs auth url tw w u tc _
        (fun p hp => hall p (List.mem_cons_of_mem _ hp)),
      lookupScore_insertScore_other _
        (Or.inl (hall (w₀, c₀) (List.mem_cons_self _ _)))]

theorem lookupScore_scorePage_self (log10 : ℚ → ℚ) (td : ℚ)
    (dfs : List (String × ℕ)) (auth : ℚ) (url : String) (tw : ℚ) :
    ∀ (tc : TermCounts), (keysOf tc).Nodup →
      ∀ {word : String} {count : ℕ}, (word, count) ∈ tc →
      ∀ (idx : List (String × List (String × ℚ))),
        lookupScore (scorePage log10 td dfs auth url tw tc idx) word url
          = some ((count : ℚ) / tw
              * log10 (td / (((getEntry dfs word).getD 1 : ℕ) : ℚ)) * auth)
  | [], _, word, count, hmem, _ => absurd hmem (List.not_mem_nil _)
  | (w₀, c₀) :: tc, hnd, word, count, hmem, idx => by
    rcases List.mem_cons.mp hmem with h | h
    · have hw : w₀ = word := by cases h; rfl
      have hc : c₀ = count := by cases h; rfl
      subst hw; subst hc
      rw [scorePage]
      rw [lookupScore_scorePage_other_word log10 td dfs auth url tw w₀ url tc _ ?_,
        lookupScore_insertScore_self]
      intro p hp he
      have : p.1 ∈ keysOf tc := List.mem_map.mpr ⟨p, hp, rfl⟩
      rw [he] at this
      exact (List.nodup_cons.mp (by simpa [keysOf] using hnd)).1 this
    · have hnd' : (keysOf tc).Nodup := (List.nodup_cons.mp (by simpa [keysOf] using hnd)).2
      rw [scorePage]
      exact lookupScore_scorePage_self log10 td dfs auth url tw tc hnd' h _

theorem lookupScore_buildScores_other (log10 : ℚ → ℚ) (td : ℚ)
    (dfs : List (String × ℕ)) (pr : PageRanks) (w url : String) :
    ∀ (pages : List (String × TermCounts)) (idx : List (String × List (String × ℚ))),
      (∀ p ∈ pages, p.1 ≠ url) →
      lookupScore (buildScores log10 td dfs pr pages idx) w url = lookupScore idx w url
  | [], idx, _ => rfl
  | (url₀, tc₀) :: pages, idx, hall => by
    rw [buildScores]
    have hne : url₀ ≠ url := hall (url₀, tc₀) (List.mem_cons_self _ _)
    have hrest : ∀ p ∈ pages, p.1 ≠ url := fun p hp => hall p (List.mem_cons_of_mem _ hp)
    by_cases h0 : (totalWords tc₀ : ℚ) = 0
    · rw [if_pos h0]
      exact lookupScore_buildScores_other log10 td dfs pr w url pages idx hrest
    · rw [if_neg h0,
        lookupScore_buildScores_other log10 td dfs pr w url pages _ hrest,
        lookupScore_scorePage_other_url log10 td dfs _ hne]

theorem lookupScore_buildScores_self (log10 : ℚ → ℚ) (td : ℚ)
    (dfs : List (String × ℕ)) (pr : PageRanks) :
    ∀ (pages : List (String × TermCounts)), (keysOf pages).Nodup →
      ∀ {url : String} {tc : TermCounts}, (url, tc) ∈ pages → (keysOf tc).Nodup →
        (totalWords tc : ℚ) ≠ 0 →
        ∀ {word : String} {count : ℕ}, (word, count) ∈ tc →
        ∀ (idx : List (String × List (String × ℚ))),
          lookupScore (buildScores log10 td dfs pr pages idx) word url
            = some ((count : ℚ) / (totalWords tc : ℚ)
                * log10 (td / (((getEntry dfs word).getD 1 : ℕ) : ℚ))
                * ((getEntry pr url).getD (1/10)))
  | [], _, url, tc, hmem, _, _, word, count, _, _ => absurd hmem (List.not_mem_nil _)
  | (url₀, tc₀) :: pages, hnd, url, tc, hmem, hndtc, htw, word, count, hwc, idx => by
    rcases List.mem_cons.mp hmem with h | h
    · have hu : url₀ = url := by cases h; rfl
      have ht : tc₀ = tc := by cases h; rfl
      subst hu; subst ht
      rw [buildScores, if_neg htw]
      rw [lookupScore_buildScores_other log10 td dfs pr word url₀ pages _ ?_,
        lookupScore_scorePage_self log10 td dfs _ _ _ tc₀ hndtc hwc]
      intro p hp he
      have : p.1 ∈ keysOf pages := List.mem_map.mpr ⟨p, hp, rfl⟩
      rw [he] at this
      exact (List.nodup_cons.mp (by simpa [keysOf] using hnd)).1 this
    · have hnd' : (keysOf pages).Nodup := (List.nodup_cons.mp (by simpa [keysOf] using hnd)).2
      have hne : url₀ ≠ url := by
        intro he
        have : url ∈ keysOf pages := List.mem_map.mpr ⟨(url, tc), h, rfl⟩
        rw [← he] at this
        exact (List.nodup_cons.mp (by simpa [keysOf] using hnd)).1 this
      rw [buildScores]
      by_cases h0 : (totalWords tc₀ : ℚ) = 0
      · rw [if_pos h0]
        exact lookupScore_buildScores_self log10 td dfs pr pages hnd' h hndtc htw hwc idx
      · rw [if_neg h0]
        exact lookupScore_buildScores_self log10 td dfs pr pages hnd' h hndtc htw hwc _

/-! ## Claim C3 — the combined TF-IDF × authority score -/

/-- C3: for every page with positive total term count and every (term, count)
pair on it, the stored combined score is
`(count / T_P) * log10(total_docs / doc_frequency[term]) * authority_score`,
with `doc_frequency` defaulting to 1 for absent terms and `authority_score`
defaulting to the fallback 0.1 for pages absent from the PageRanks map. -/
theorem C3_combined_score_formula :
    ∀ (log10 : ℚ → ℚ) (page_ranks : PageRanks) (cd : CrawlData),
      (keysOf cd.page_term_counts).Nodup →
      ∀ url tc, (url, tc) ∈ cd.page_term_counts → (keysOf tc).Nodup →
        (totalWords tc : ℚ) ≠ 0 →
        ∀ word count, (word, count) ∈ tc →
          lookupScore (build_index log10 page_ranks cd).scores word url
            = some ((count : ℚ) / (totalWords tc : ℚ)
                * log10 ((cd.page_term_counts.length : ℚ)
                    / (((getEntry cd.doc_frequencies word).getD 1 : ℕ) : ℚ))
                * ((getEntry page_ranks url).getD (1/10))) := by
  intro log10 pr cd hnd url tc hmem hndtc htw word count hwc
  exact lookupScore_buildScores_self log10 _ _ pr cd.page_term_counts hnd hmem hndtc htw hwc []

/-- Crawl data of a tiny concrete run used as the C3 witness. -/
def cdExample : CrawlData :=
  ⟨[("u", [("hello", 2), ("world", 1)])], [("hello", 1)], []⟩

/-- C3, witness: the scoring formula evaluated on a one-page crawl with
`log10` instantiated to the identity function. -/
theorem C3_witness :
    lookupScore (build_index (fun q => q) [("u", 2)] cdExample).scores "hello" "u"
      = some (4/3) := by
  have h := C3_combined_score_formula (fun q => q) [("u", 2)] cdExample (by decide)
    "u" [("hello", 2), ("world", 1)] (by decide) (by decide) (by norm_num [totalWords])
    "hello" 2 (by decide)
  rw [h]
  norm_num [totalWords, getEntry, cdExample]

/-! ## Persistence of the `ScoredIndex` (spider/mod.rs:156-161, main.rs:58-59)

`serde_json::to_string(&final_index)` / `serde_json::from_reader` are embedded
at the data level: a JSON AST with objects and numbers, the derived
serialisation shape of `ScoredIndex`, and its inverse.  Scores are exact
rationals here; the JSON text layer prints `f64` via shortest-round-trip
notation, so data-level equality is the faithful contract. -/

/-- A data-level JSON value (the fragment the persisted index uses). -/
inductive Json where
  | num : ℚ → Json
  | str : String → Json
  | obj : List (String × Json) → Json

/-- Serialisation of one `url → score` map. -/
def encodeScoreMap (m : List (String × ℚ)) : Json :=
  Json.obj (m.map (fun p => (p.1, Json.num p.2)))

/-- Serialisation of the whole `ScoredIndex`: one object with field `scores`. -/
def encodeScoredIndex (idx : ScoredIndex) : Json :=
  Json.obj [("scores", Json.obj (idx.scores.map (fun p => (p.1, encodeScoreMap p.2))))]

def decodeNum : Json → Option ℚ
  | Json.num q => some q
  | _ => none

def decodeScoreEntries : List (String × Json) → Option (List (String × ℚ))
  | [] => some []
  | p :: l =>
    match decodeNum p.2, decodeScoreEntries l with
    | some q, some m => some ((p.1, q) :: m)
    | _, _ => none

def decodeScoreMap : Json → Option (List (String × ℚ))
  | Json.obj l => decodeScoreEntries l
  | _ => none

def decodeIndexEntries : List (String × Json) → Option (List (String × List (String × ℚ)))
  | [] => some []
  | p :: l =>
    match decodeScoreMap p.2, decodeIndexEntries l with
    | some m, some s => some ((p.1, m) :: s)
    | _, _ => none

/-- Deserialisation of the persisted index. -/
def decodeScoredIndex : Json → Option ScoredIndex
  | Json.obj [("scores", Json.obj l)] =>
    (decodeIndexEntries l).map ScoredIndex.mk
  | _ => none

theorem decodeScoreEntries_encode (m : List (String × ℚ)) :
    decodeScoreEntries (m.map (fun p => (p.1, Json.num p.2))) = some m := by
  induction m with
  | nil => rfl
  | cons p m ih => simp [decodeScoreEntries, decodeNum, ih]

theorem decodeIndexEntries_encode (s : List (String × List (String × ℚ))) :
    decodeIndexEntries (s.map (fun p => (p.1, encodeScoreMap p.2))) = some s := by
  induction s with
  | nil => rfl
  | cons p s ih =>
    simp only [List.map_cons, decodeIndexEntries]
    rw [ih]
    simp [decodeScoreMap, encodeScoreMap, decodeScoreEntries_encode]

/-! ## Claim C9 — the persisted index round-trips -/

/-- C9: serialising a `ScoredIndex` and deserialising the result yields exactly
the original mapping — every (term, url) pair of the original is present in the
reload and vice versa, with identical scores. -/
theorem C9_roundtrip :
    ∀ idx : ScoredIndex, decodeScoredIndex (encodeScoredIndex idx) = some idx := by
  intro idx
  cases idx with
  | mk scores =>
    simp [encodeScoredIndex, decodeScoredIndex, decodeIndexEntries_encode]

/-! ## The indexer's document pass: `run_indexer` (indexer/mod.rs)

The `ScrapeResult` produced by `crawler/datascraper.rs` (the variant carrying
the `is_partial` flag, embedded here as the field `isPartial`), the link graph
`run_indexer` builds from the scraped pages (lines 45–48), and the documents it
adds to the index (lines 85–98: every scraped page, with `title.unwrap_or_default()`
and `page_ranks.get(url).cloned().unwrap_or(0.0)`). -/

structure ScrapeResult where
  url : String
  title : Option String
  body_text : String
  links : List String
  isPartial : Bool

/-- The link graph built by `run_indexer` from the scraped data: every scraped
page contributes an entry, its link list collected into a set. -/
def link_graph_of (scraped : List ScrapeResult) : LinkGraph :=
  scraped.map (fun d => (d.url, d.links.dedup))

/-- A document as handed to the index writer. -/
structure IndexedDoc where
  url : String
  title : String
  body : String
  pagerank : ℚ

/-- The documents `run_indexer` adds: one per scraped page — partial or not. -/
def docs_of (page_ranks : PageRanks) (scraped : List ScrapeResult) : List IndexedDoc :=
  scraped.map (fun r =>
    ⟨r.url, r.title.getD "", r.body_text, (getEntry page_ranks r.url).getD 0⟩)

/-- A paywalled page as scraped by `crawler/datascraper.rs`: body text reduced
to the metadata description, flagged partial, links still extracted. -/
def resPartial : ScrapeResult := ⟨"p", some "T", "meta text", ["q"], true⟩

/-! ## Claim C8 — partial pages and scoring -/

/-- C8, counterexample: a scrape result with the partial flag set still yields
an indexed document (so it counts toward the indexed corpus that relevance
scoring runs over) and a link-graph entry; nothing excludes it. -/
theorem C8_partial_counterexample :
    resPartial.isPartial = true ∧
    docs_of [] [resPartial] = [⟨"p", "T", "meta text", 0⟩] ∧
    (docs_of [] [resPartial]).length = 1 ∧
    link_graph_of [resPartial] = [("p", ["q"])] := by
  refine ⟨rfl, ?_, rfl, ?_⟩
  · simp [docs_of, resPartial, getEntry]
  · simp [link_graph_of, resPartial]

/-- C8, amended: a page whose scrape result is flagged partial has its body text
reduced to metadata at scrape time and is recorded in the results with the flag
set and its links still collected — but it is NOT excluded from scoring: the
indexer adds every scraped page, partial included, as a document (its metadata
text as body, with the default authority when unranked) and gives it a
link-graph entry; no accumulator treats partial pages specially. -/
theorem C8_partial_pages_still_indexed :
    ∀ (page_ranks : PageRanks) (scraped : List ScrapeResult) (r : ScrapeResult),
      r ∈ scraped → r.isPartial = true →
      (⟨r.url, r.title.getD "", r.body_text, (getEntry page_ranks r.url).getD 0⟩ : IndexedDoc)
          ∈ docs_of page_ranks scraped ∧
      (r.url, r.links.dedup) ∈ link_graph_of scraped ∧
      (docs_of page_ranks scraped).length = scraped.length := by
  intro pr scraped r hmem _
  refine ⟨?_, ?_, ?_⟩
  · exact List.mem_map.mpr ⟨r, hmem, rfl⟩
  · exact List.mem_map.mpr ⟨r, hmem, rfl⟩
  · simp [docs_of]

/-- C8, witness: the amended statement applied to the concrete paywalled page. -/
theorem C8_witness :
    (⟨"p", "T", "meta text", (0:ℚ)⟩ : IndexedDoc) ∈ docs_of [] [resPartial] ∧
    ("p", ["q"]) ∈ link_graph_of [resPartial] ∧
    (docs_of [] [resPartial]).length = 1 := by
  have h := C8_partial_pages_still_indexed [] [resPartial] resPartial
    (List.mem_cons_self _ _) rfl
  refine ⟨?_, ?_, h.2.2⟩
  · have := h.1
    simpa [resPartial, getEntry] using this
  · have := h.2.1
    simpa [resPartial] using this

/-! ## The crawl scheduler, sequential model (spider/mod.rs:54-115, crawler/mod.rs:42-136)

The loop pops the frontier front, skips already-visited urls, marks a fresh url
visited and fetches it, pushes its extracted links to the back of the frontier,
and stops when the visited count reaches the limit or the frontier runs dry.
This model is the loop at concurrency 1, where each spawned task completes
(pushing its links and its result) before the next dequeue: the web is a finite
link graph used as the fetch oracle, a url absent from the graph being a failed
fetch — visited-counted but contributing no links and no result. -/

/-- Successor links of a url under the oracle graph (`[]` for a failed fetch). -/
def succs (g : LinkGraph) (u : String) : List String := (getEntry g u).getD []

/-- Repeated `pop_front` + visited-membership checks until an unvisited url (or
an empty frontier) is found. -/
def popUnvisited (visited : List String) : List String → Option (String × List String)
  | [] => none
  | u :: q => if u ∈ visited then popUnvisited visited q else some (u, q)

/-- Final state of one crawl run: visited set, remaining frontier, and the
collected successful scrape results (url with its links). -/
structure CrawlResult where
  visited : List String
  queue : List String
  results : List (String × List String)

/-- The crawl loop; the budget argument is `limit - |visited|`, each dispatch
consumes one unit (the loop's `visited.len() < limit` guard). -/
def crawlAux (g : LinkGraph) : ℕ → List String → List String →
    List (String × List String) → CrawlResult
  | 0, q, v, res => ⟨v, q, res⟩
  | b + 1, q, v, res =>
    match popUnvisited v q with
    | none => ⟨v, [], res⟩
    | some (u, q') =>
      match getEntry g u with
      | none => crawlAux g b q' (v ++ [u]) res
      | some ls => crawlAux g b (q' ++ ls) (v ++ [u]) (res ++ [(u, ls)])

/-- `Spider::crawl` / `Crawler::crawl` at concurrency 1, from one seed url. -/
def crawl (g : LinkGraph) (seed : String) (limit : ℕ) : CrawlResult :=
  crawlAux g limit [seed] [] []

/-- Reachability from the seed in the oracle graph. -/
inductive Reachable (g : LinkGraph) (seed : String) : String → Prop
  | seed : Reachable g seed seed
  | step {u t : String} : Reachable g seed u → t ∈ succs g u → Reachable g seed t

theorem popUnvisited_none {v : List String} :
    ∀ {q : List String}, popUnvisited v q = none → ∀ t ∈ q, t ∈ v
  | [], _, t, ht => absurd ht (List.not_mem_nil t)
  | u :: q, h, t, ht => by
    rw [popUnvisited] at h
    by_cases hu : u ∈ v
    · rw [if_pos hu] at h
      rcases List.mem_cons.mp ht with rfl | ht'
      · exact hu
      · exact popUnvisited_none h t ht'
    · rw [if_neg hu] at h
      cases h

theorem popUnvisited_some {v : List String} :
    ∀ {q : List String} {u : String} {q' : List String},
      popUnvisited v q = some (u, q') →
      u ∉ v ∧ u ∈ q ∧ (∀ t ∈ q', t ∈ q) ∧ (∀ t ∈ q, t ∈ v ∨ t = u ∨ t ∈ q')
  | [], u, q', h => by cases h
  | w :: q, u, q', h => by
    rw [popUnvisited] at h
    by_cases hw : w ∈ v
    · rw [if_pos hw] at h
      rcases popUnvisited_some h with ⟨h1, h2, h3, h4⟩
      refine ⟨h1, List.mem_cons_of_mem _ h2, fun t ht => List.mem_cons_of_mem _ (h3 t ht), ?_⟩
      intro t ht
      rcases List.mem_cons.mp ht with rfl | ht'
      · exact Or.inl hw
      · exact h4 t ht'
    · rw [if_neg hw] at h
      injection h with h'
      injection h' with hu hq
      subst hu; subst hq
      refine ⟨hw, List.mem_cons_self _ _, fun t ht => List.mem_cons_of_mem _ ht, ?_⟩
      intro t ht
      rcases List.mem_cons.mp ht with rfl | ht'
      · exact Or.inr (Or.inl rfl)
      · exact Or.inr (Or.inr ht')

theorem nodup_concat {v : List String} {u : String} (hnd : v.Nodup) (hu : u ∉ v) :
    (v ++ [u]).Nodup := by
  rw [List.nodup_append]
  exact ⟨hnd, List.nodup_singleton u, by simpa using hu⟩

theorem reach_subset_of_closed {g : LinkGraph} {seed : String} {v : List String}
    (hseed : seed ∈ v) (hclosed : ∀ x ∈ v, ∀ t ∈ succs g x, t ∈ v) :
    ∀ x, Reachable g seed x → x ∈ v := by
  intro x hx
  induction hx with
  | seed => exact hseed
  | step hu ht ih => exact hclosed _ ih _ ht

/-- Loop invariant of the crawl: the visited list is duplicate-free, everything
visited or queued is reachable, the seed is visited or queued, and all links of
visited pages are visited or queued. -/
def CrawlInv (g : LinkGraph) (seed : String) (v q : List String) : Prop :=
  v.Nodup ∧ (∀ x ∈ v, Reachable g seed x) ∧ (∀ x ∈ q, Reachable g seed x) ∧
  (seed ∈ v ∨ seed ∈ q) ∧ (∀ x ∈ v, ∀ t ∈ succs g x, t ∈ v ∨ t ∈ q)

theorem crawlAux_zero (g : LinkGraph) (q v : List String)
    (res : List (String × List String)) : crawlAux g 0 q v res = ⟨v, q, res⟩ := rfl

theorem crawlAux_stop {v q : List String} (g : LinkGraph) (b : ℕ)
    (res : List (String × List String)) (h : popUnvisited v q = none) :
    crawlAux g (b + 1) q v res = ⟨v, [], res⟩ := by
  rw [crawlAux, h]

theorem crawlAux_fetchFail {v q : List String} {u : String} {q' : List String}
    {g : LinkGraph} (b : ℕ) (res : List (String × List String))
    (hpop : popUnvisited v q = some (u, q')) (hget : getEntry g u = none) :
    crawlAux g (b + 1) q v res = crawlAux g b q' (v ++ [u]) res := by
  rw [crawlAux, hpop]
  show (match getEntry g u with
    | none => crawlAux g b q' (v ++ [u]) res
    | some ls => crawlAux g b (q' ++ ls) (v ++ [u]) (res ++ [(u, ls)])) = _
  rw [hget]

theorem crawlAux_fetchOk {v q : List String} {u : String} {q' : List String}
    {g : LinkGraph} {ls : List String} (b : ℕ) (res : List (String × List String))
    (hpop : popUnvisited v q = some (u, q')) (hget : getEntry g u = some ls) :
    crawlAux g (b + 1) q v res
      = crawlAux g b (q' ++ ls) (v ++ [u]) (res ++ [(u, ls)]) := by
  rw [crawlAux, hpop]
  show (match getEntry g u with
    | none => crawlAux g b q' (v ++ [u]) res
    | some ls' => crawlAux g b (q' ++ ls') (v ++ [u]) (res ++ [(u, ls')])) = _
  rw [hget]

theorem crawlAux_spec (g : LinkGraph) (seed : String) :
    ∀ (b : ℕ) (q v : List String) (res : List (String × List String)),
      CrawlInv g seed v q →
      (crawlAux g b q v res).visited.Nodup ∧
      (∀ x ∈ (crawlAux g b q v res).visited, Reachable g seed x) ∧
      (∀ x ∈ v, x ∈ (crawlAux g b q v res).visited) ∧
      (crawlAux g b q v res).visited.length ≤ v.length + b ∧
      (crawlAux g b q v res).results.length + v.length
        ≤ res.length + (crawlAux g b q v res).visited.length ∧
      ((crawlAux g b q v res).visited.length = v.length + b ∨
        ∀ x, Reachable g seed x → x ∈ (crawlAux g b q v res).visited)
  | 0, q, v, res, hinv => by
    rw [crawlAux_zero]
    exact ⟨hinv.1, hinv.2.1, fun x hx => hx, Nat.le_add_right _ 0,
      Nat.le_refl _, Or.inl rfl⟩
  | b + 1, q, v, res, hinv => by
    rcases hinv with ⟨hnd, hvr, hqr, hseed, hcl⟩
    cases hpop : popUnvisited v q with
    | none =>
      rw [crawlAux_stop g b res hpop]
      have hq := popUnvisited_none hpop
      have hseedv : seed ∈ v := by
        rcases hseed with h | h
        · exact h
        · exact hq seed h
      have hclv : ∀ x ∈ v, ∀ t ∈ succs g x, t ∈ v := by
        intro x hx t ht
        rcases hcl x hx t ht with h | h
        · exact h
        · exact hq t h
      exact ⟨hnd, hvr, fun x hx => hx, Nat.le_add_right _ _,
        Nat.le_refl _,
        Or.inr (reach_subset_of_closed hseedv hclv)⟩
    | some p =>
      obtain ⟨u, q'⟩ := p
      rcases popUnvisited_some hpop with ⟨hunv, huq, hq'q, hdecomp⟩
      have hureach : Reachable g seed u := hqr u huq
      have hnd' : (v ++ [u]).Nodup := nodup_concat hnd hunv
      have hvr' : ∀ x ∈ v ++ [u], Reachable g seed x := by
        intro x hx
        rcases List.mem_append.mp hx with h | h
        · exact hvr x h
        · rcases List.mem_singleton.mp h with rfl
          exact hureach
      have hmemv' : ∀ x ∈ v, x ∈ v ++ [u] := fun x hx => List.mem_append_left _ hx
      have humem : u ∈ v ++ [u] := List.mem_append_right _ (List.mem_singleton_self u)
      cases hget : getEntry g u with
      | none =>
        have hsuccu : succs g u = [] := by simp [succs, hget]
        have hinv' : CrawlInv g seed (v ++ [u]) q' := by
          refine ⟨hnd', hvr', fun x hx => hqr x (hq'q x hx), ?_, ?_⟩
          · rcases hseed with h | h
            · exact Or.inl (hmemv' seed h)
            · rcases hdecomp seed h with h' | h' | h'
              · exact Or.inl (hmemv' seed h')
              · exact Or.inl (h' ▸ humem)
              · exact Or.inr h'
          · intro x hx t ht
            rcases List.mem_append.mp hx with h | h
            · rcases hcl x h t ht with h' | h'
              · exact Or.inl (hmemv' t h')
              · rcases hdecomp t h' with h'' | h'' | h''
                · exact Or.inl (hmemv' t h'')
                · exact Or.inl (h'' ▸ humem)
                · exact Or.inr h''
            · rcases List.mem_singleton.mp h with rfl
              rw [hsuccu] at ht
              cases ht
        rw [crawlAux_fetchFail b res hpop hget]
        rcases crawlAux_spec g seed b q' (v ++ [u]) res hinv' with ⟨c1, c2, c3, c4, c5, c6⟩
        refine ⟨c1, c2, fun x hx => c3 x (hmemv' x hx), ?_, ?_, ?_⟩
        · have hvl : (v ++ [u]).length = v.length + 1 := by simp
          omega
        · have := c5
          simp only [List.length_append, List.length_singleton] at this
          omega
        · rcases c6 with h | h
          · left
            simp only [List.length_append, List.length_singleton] at h
            omega
          · exact Or.inr h
      | some ls =>
        have hsuccu : succs g u = ls := by simp [succs, hget]
        have hinv' : CrawlInv g seed (v ++ [u]) (q' ++ ls) := by
          refine ⟨hnd', hvr', ?_, ?_, ?_⟩
          · intro x hx
            rcases List.mem_append.mp hx with h | h
            · exact hqr x (hq'q x h)
            · exact Reachable.step hureach (hsuccu ▸ h)
          · rcases hseed with h | h
            · exact Or.inl (hmemv' seed h)
            · rcases hdecomp seed h with h' | h' | h'
              · exact Or.inl (hmemv' seed h')
              · exact Or.inl (h' ▸ humem)
              · exact Or.inr (List.mem_append_left _ h')
          · intro x hx t ht
            rcases List.mem_append.mp hx with h | h
            · rcases hcl x h t ht with h' | h'
              · exact Or.inl (hmemv' t h')
              · rcases hdecomp t h' with h'' | h'' | h''
                · exact Or.inl (hmemv' t h'')
                · exact Or.inl (h'' ▸ humem)
                · exact Or.inr (List.mem_append_left _ h'')
            · rcases List.mem_singleton.mp h with rfl
              rw [hsuccu] at ht
              exact Or.inr (List.mem_append_right _ ht)
        rw [crawlAux_fetchOk b res hpop hget]
        rcases crawlAux_spec g seed b (q' ++ ls) (v ++ [u]) (res ++ [(u, ls)]) hinv' with
          ⟨c1, c2, c3, c4, c5, c6⟩
        refine ⟨c1, c2, fun x hx => c3 x (hmemv' x hx), ?_, ?_, ?_⟩
        · have hvl : (v ++ [u]).length = v.length + 1 := by simp
          omega
        · have := c5
          simp only [List.length_append, List.length_singleton] at this
          omega
        · rcases c6 with h | h
          · left
            simp only [List.length_append, List.length_singleton] at h
            omega
          · exact Or.inr h

theorem crawl_spec (g : LinkGraph) (seed : String) (limit : ℕ) :
    (crawl g seed limit).visited.Nodup ∧
    (∀ x ∈ (crawl g seed limit).visited, Reachable g seed x) ∧
    (crawl g seed limit).visited.length ≤ limit ∧
    (crawl g seed limit).results.length ≤ (crawl g seed limit).visited.length ∧
    ((crawl g seed limit).visited.length = limit ∨
      ∀ x, Reachable g seed x → x ∈ (crawl g seed limit).visited) := by
  have hinv : CrawlInv g seed [] [seed] := by
    refine ⟨List.nodup_nil, fun x hx => absurd hx (List.not_mem_nil x), ?_, ?_, ?_⟩
    · intro x hx
      rcases List.mem_singleton.mp hx with rfl
      exact Reachable.seed
    · exact Or.inr (List.mem_singleton_self seed)
    · intro x hx
      exact absurd hx (List.not_mem_nil x)
  rcases crawlAux_spec g seed limit [seed] [] [] hinv with ⟨c1, c2, _, c4, c5, c6⟩
  refine ⟨c1, c2, by simpa using c4, by simpa using c5, ?_⟩
  rcases c6 with h | h
  · exact Or.inl (by simpa using h)
  · exact Or.inr h

theorem mem_iff_of_nodup_subset_length {l₁ l₂ : List String} (h₁ : l₁.Nodup)
    (_ : l₂.Nodup) (hsub : ∀ x ∈ l₁, x ∈ l₂) (hlen : l₂.length ≤ l₁.length) :
    ∀ x, x ∈ l₁ ↔ x ∈ l₂ := by
  have hsp : l₁.Subperm l₂ := h₁.subperm hsub
  have hperm : l₁.Perm l₂ := hsp.perm_of_length_le hlen
  exact fun x => hperm.mem_iff

/-! ## Claim C5 — termination and coverage of the crawl -/

/-- C5: the crawl (a total function: cycles and self-loops cannot make it spin)
satisfies — given any duplicate-free enumeration `R` of the reachable set — that
with `limit ≥ |R|` it visits exactly the reachable set, each page once, and with
`limit < |R|` it visits exactly `limit` pages. -/
theorem C5_crawl_terminates_and_covers :
    ∀ (g : LinkGraph) (seed : String) (limit : ℕ) (R : List String),
      R.Nodup → (∀ u, u ∈ R ↔ Reachable g seed u) →
      (crawl g seed limit).visited.Nodup ∧
      (R.length ≤ limit → ∀ u, u ∈ (crawl g seed limit).visited ↔ u ∈ R) ∧
      (limit < R.length → (crawl g seed limit).visited.length = limit) := by
  intro g seed limit R hRnd hR
  rcases crawl_spec g seed limit with ⟨c1, c2, c3, _, c5⟩
  have hsubR : ∀ x ∈ (crawl g seed limit).visited, x ∈ R :=
    fun x hx => (hR x).mpr (c2 x hx)
  refine ⟨c1, ?_, ?_⟩
  · intro hlim
    rcases c5 with h | h
    · -- the budget was exhausted: |visited| = limit ≥ |R|, and visited ⊆ R
      have hlen : R.length ≤ (crawl g seed limit).visited.length := by omega
      exact mem_iff_of_nodup_subset_length c1 hRnd hsubR hlen
    · -- frontier exhausted: visited = reachable set
      intro u
      exact ⟨fun hu => (hR u).mpr (c2 u hu), fun hu => h u ((hR u).mp hu)⟩
  · intro hlim
    rcases c5 with h | h
    · exact h
    · -- impossible: then R ⊆ visited forces |R| ≤ |visited| ≤ limit < |R|
      exfalso
      have hsub : ∀ x ∈ R, x ∈ (crawl g seed limit).visited :=
        fun x hx => h x ((hR x).mp hx)
      have := (hRnd.subperm hsub).length_le
      omega

theorem reachable_gTwoCycle : ∀ u, u ∈ ["a", "b"] ↔ Reachable gTwoCycle "a" u := by
  intro u
  constructor
  · intro hu
    rcases List.mem_cons.mp hu with rfl | hu
    · exact Reachable.seed
    · rcases List.mem_singleton.mp hu with rfl
      exact Reachable.step Reachable.seed (by decide)
  · intro hu
    induction hu with
    | seed => exact List.mem_cons_self _ _
    | step hx ht ih =>
      rcases List.mem_cons.mp ih with rfl | ih'
      · have : succs gTwoCycle "a" = ["b"] := by decide
        rw [this] at ht
        rcases List.mem_singleton.mp ht with rfl
        exact List.mem_cons_of_mem _ (List.mem_singleton_self _)
      · rcases List.mem_singleton.mp ih' with rfl
        have : succs gTwoCycle "b" = ["a"] := by decide
        rw [this] at ht
        rcases List.mem_singleton.mp ht with rfl
        exact List.mem_cons_self _ _

/-- C5, witness: on the two-node cycle with limit 2, the crawl visits exactly
the reachable set (duplicate-free). -/
theorem C5_witness :
    (crawl gTwoCycle "a" 2).visited.Nodup ∧
    ("a" ∈ (crawl gTwoCycle "a" 2).visited ↔ "a" ∈ ["a", "b"]) ∧
    ("b" ∈ (crawl gTwoCycle "a" 2).visited ↔ "b" ∈ ["a", "b"]) := by
  have h := C5_crawl_terminates_and_covers gTwoCycle "a" 2 ["a", "b"]
    (by decide) reachable_gTwoCycle
  exact ⟨h.1, h.2.1 (by decide) "a", h.2.1 (by decide) "b"⟩

/-! ## The concurrent crawl as a small-step transition system

The shared state of `Crawler::crawl` (crawler/mod.rs:42-136; `Spider::crawl` has
the same dispatch skeleton): the frontier queue, the visited set, the in-flight
tasks with their eventual outcome (`none` for a failed fetch), and the collected
results.  `dispatched` records the urls for which a task was spawned.  The steps
are the loop's atomic critical sections: dequeue of a fresh url with its
check-then-insert into the visited set and task spawn; dequeue-and-discard of an
already-visited url; and completion of any in-flight task, in arbitrary order —
a successful task pushes its links to the queue back and appends its result, a
failed one is discarded.  The fetch outcome is an oracle `fetch`. -/

structure SpiderState where
  queue : List String
  visited : List String
  pending : List (Option ScrapeResult)
  results : List ScrapeResult
  dispatched : List String

inductive CrawlStep (fetch : String → Option ScrapeResult) (limit : ℕ) :
    SpiderState → SpiderState → Prop
  | dispatch (u : String) (q v p res d : _) :
      v.length < limit → u ∉ v →
      CrawlStep fetch limit ⟨u :: q, v, p, res, d⟩
        ⟨q, u :: v, fetch u :: p, res, u :: d⟩
  | skip (u : String) (q v p res d : _) :
      v.length < limit → u ∈ v →
      CrawlStep fetch limit ⟨u :: q, v, p, res, d⟩ ⟨q, v, p, res, d⟩
  | completeFail (q v p₁ p₂ res d : _) :
      CrawlStep fetch limit ⟨q, v, p₁ ++ none :: p₂, res, d⟩ ⟨q, v, p₁ ++ p₂, res, d⟩
  | completeOk (r : ScrapeResult) (q v p₁ p₂ res d : _) :
      CrawlStep fetch limit ⟨q, v, p₁ ++ some r :: p₂, res, d⟩
        ⟨q ++ r.links, v, p₁ ++ p₂, res ++ [r], d⟩

/-- The crawl's starting state from one seed url. -/
def initState (seed : String) : SpiderState := ⟨[seed], [], [], [], []⟩

/-- The states one crawl run can reach, under any interleaving. -/
def ReachableState (fetch : String → Option ScrapeResult) (limit : ℕ) (seed : String)
    (s : SpiderState) : Prop :=
  Relation.ReflTransGen (CrawlStep fetch limit) (initState seed) s

/-- The inductive invariant of the crawl state. -/
def StateInv (limit : ℕ) (s : SpiderState) : Prop :=
  s.visited = s.dispatched ∧ s.visited.Nodup ∧ s.visited.length ≤ limit ∧
  s.results.length + s.pending.length ≤ s.visited.length

theorem stateInv_init (limit : ℕ) (seed : String) : StateInv limit (initState seed) :=
  ⟨rfl, List.nodup_nil, Nat.zero_le _, Nat.le_refl 0⟩

theorem stateInv_step {fetch : String → Option ScrapeResult} {limit : ℕ}
    {s s' : SpiderState} (hstep : CrawlStep fetch limit s s') (hinv : StateInv limit s) :
    StateInv limit s' := by
  rcases hinv with ⟨hd, hnd, hlen, hres⟩
  cases hstep with
  | dispatch u q v p res d hlt hu =>
    refine ⟨by simp_all, ?_, ?_, ?_⟩
    · simp only at hnd hu ⊢
      exact List.nodup_cons.mpr ⟨hu, hnd⟩
    · simp only [List.length_cons] at *
      omega
    · simp only [List.length_cons] at *
      omega
  | skip u q v p res d hlt hu => exact ⟨hd, hnd, hlen, hres⟩
  | completeFail q v p₁ p₂ res d =>
    refine ⟨hd, hnd, hlen, ?_⟩
    simp only [List.length_append, List.length_cons, List.length_nil] at *
    omega
  | completeOk r q v p₁ p₂ res d =>
    refine ⟨hd, hnd, hlen, ?_⟩
    simp only [List.length_append, List.length_cons, List.length_singleton,
      List.length_nil] at *
    omega

theorem reachableState_inv {fetch : String → Option ScrapeResult} {limit : ℕ}
    {seed : String} {s : SpiderState} (h : ReachableState fetch limit seed s) :
    StateInv limit s := by
  induction h with
  | refl => exact stateInv_init limit seed
  | tail _ hstep ih => exact stateInv_step hstep ih

/-! ## Claim C4 — at-most-once dispatch -/

/-- C4: in every reachable state of every crawl run — any oracle, any limit, any
interleaving — the dispatched urls are pairwise distinct (each dispatched
exactly once) and coincide with the visited set: a url enters the visited set
exactly when it is dequeued and dispatched, so no url is ever handed to two
fetch tasks. -/
theorem C4_at_most_once_dispatch :
    ∀ (fetch : String → Option ScrapeResult) (limit : ℕ) (seed : String)
      (s : SpiderState), ReachableState fetch limit seed s →
      s.dispatched.Nodup ∧ s.visited = s.dispatched := by
  intro fetch limit seed s h
  rcases reachableState_inv h with ⟨hd, hnd, _, _⟩
  exact ⟨hd ▸ hnd, hd⟩

/-- C4, witness: a concrete two-step run (dispatch the seed, then its task
fails) under the always-failing oracle. -/
theorem C4_witness :
    (⟨[], ["a"], [], [], ["a"]⟩ : SpiderState).dispatched.Nodup ∧
    (⟨[], ["a"], [], [], ["a"]⟩ : SpiderState).visited
      = (⟨[], ["a"], [], [], ["a"]⟩ : SpiderState).dispatched := by
  have h1 : CrawlStep (fun _ => none) 1 (initState "a") ⟨[], ["a"], [none], [], ["a"]⟩ :=
    CrawlStep.dispatch "a" [] [] [] [] [] (by decide) (by decide)
  have h2 : CrawlStep (fun _ => none) 1 ⟨[], ["a"], [none], [], ["a"]⟩
      ⟨[], ["a"], [], [], ["a"]⟩ :=
    CrawlStep.completeFail [] ["a"] [] [] [] ["a"]
  exact C4_at_most_once_dispatch (fun _ => none) 1 "a" _
    ((Relation.ReflTransGen.single h1).tail h2)

/-! ## Claim C10 — the page budget -/

/-- The oracle graph of the C10 example: the seed links to two pages and both of
their fetches fail. -/
def gBudget : LinkGraph := [("a", ["b", "c"])]

/-- C10: (i) in every reachable state of every run, at most `limit` urls are
dispatched and at most `limit` results are collected; (ii) concretely, a failed
fetch still consumes budget: with limit 2 on a seed linking to two failing
pages, the run ends with 1 result, 2 visited pages, and the reachable page "c"
still waiting in the frontier. -/
theorem C10_budget_and_failed_fetches :
    (∀ (fetch : String → Option ScrapeResult) (limit : ℕ) (seed : String)
      (s : SpiderState), ReachableState fetch limit seed s →
      s.dispatched.length ≤ limit ∧ s.results.length ≤ limit) ∧
    ((crawl gBudget "a" 2).results.length = 1 ∧
      (crawl gBudget "a" 2).visited = ["a", "b"] ∧
      (crawl gBudget "a" 2).queue = ["c"] ∧
      "c" ∉ (crawl gBudget "a" 2).visited ∧
      Reachable gBudget "a" "c") := by
  constructor
  · intro fetch limit seed s h
    rcases reachableState_inv h with ⟨hd, _, hlen, hres⟩
    exact ⟨hd ▸ hlen, by omega⟩
  · refine ⟨by decide, by decide, by decide, by decide, ?_⟩
    exact Reachable.step Reachable.seed (by decide)

/-- C10, witness: the budget bound applied to a concrete one-dispatch run at
limit 1. -/
theorem C10_witness :
    (⟨[], ["a"], [none], [], ["a"]⟩ : SpiderState).dispatched.length ≤ 1 ∧
    (⟨[], ["a"], [none], [], ["a"]⟩ : SpiderState).results.length ≤ 1 :=
  C10_budget_and_failed_fetches.1 (fun _ => none) 1 "a" _
    (Relation.ReflTransGen.single
      (CrawlStep.dispatch "a" [] [] [] [] [] (by decide) (by decide)))

end SearchEngine
